import Mathlib

/-
Verification of the storage-and-crypto core of the Student Database
Management System (src/sdms.py).

Modelling conventions:
* Python byte strings are `List Nat` with every element `< 256`.  Plaintext
  strings are represented by their UTF-8 byte sequences (`s.encode()` /
  `bytes.decode()` form a bijection between Python strings and valid UTF-8
  byte lists), so codec properties stated at the byte level are exactly the
  corresponding properties on strings.
* The SQLite table `students` is a `List Row`; `INSERT`, `SELECT ... ORDER
  BY id`, `UPDATE ... WHERE id=?` and `DELETE ... WHERE id=?` are embedded
  as the corresponding pure list operations.
* `cryptography.fernet.Fernet` is an external library primitive, not code
  of this repository: it is modelled as an abstract pair of
  encrypt/decrypt functions, and its documented contract (authenticated
  encryption: round trip, tamper detection) enters theorems as explicit
  hypotheses.
* Fallible Python calls (raising exceptions) return `Option`/`Except`.
-/

namespace SDMS

/-! ## Base64 (the fallback codec, `base64.b64encode` / `base64.b64decode`)

Standard RFC 4648 base64 with the `A-Za-z0-9+/` alphabet and `=` padding,
which is what Python's `base64` module implements.  `b64decode` here models
`base64.b64decode(b)` with the default `validate=False`: bytes outside the
alphabet are discarded before decoding, and a leftover group that is not a
full (possibly padded) quadruple is an error (`binascii.Error`, modelled as
`none`).  Padding is modelled in its standard terminal position. -/

/-- The base64 alphabet: the ASCII code of the digit for a 6-bit value. -/
def b64char (n : Nat) : Nat :=
  if n < 26 then 65 + n
  else if n < 52 then 97 + (n - 26)
  else if n < 62 then 48 + (n - 52)
  else if n = 62 then 43
  else 47

/-- Inverse of the alphabet: the 6-bit value of an ASCII code, `none` when
the byte is not a base64 digit (`=`, code 61, is not a digit). -/
def b64val (c : Nat) : Option Nat :=
  if 65 ≤ c ∧ c ≤ 90 then some (c - 65)
  else if 97 ≤ c ∧ c ≤ 122 then some (c - 97 + 26)
  else if 48 ≤ c ∧ c ≤ 57 then some (c - 48 + 52)
  else if c = 43 then some 62
  else if c = 47 then some 63
  else none

/-- `base64.b64encode`: three input bytes become four alphabet bytes; a
final group of one or two bytes is padded with `=` (code 61). -/
def b64encode : List Nat → List Nat
  | [] => []
  | [a] => [b64char (a / 4), b64char (a % 4 * 16), 61, 61]
  | [a, b] => [b64char (a / 4), b64char (a % 4 * 16 + b / 16), b64char (b % 16 * 4), 61]
  | a :: b :: c :: rest =>
      b64char (a / 4) :: b64char (a % 4 * 16 + b / 16) ::
      b64char (b % 16 * 4 + c / 64) :: b64char (c % 64) :: b64encode rest

/-- Decoding of a stream of base64 digits already filtered to the alphabet
plus `=`: quadruples of digits, with the two terminal padded forms.  Python
does not check that the unused low bits of a padded group are zero, and
neither does this model. -/
def b64decodeAux : List Nat → Option (List Nat)
  | [] => some []
  | p :: q :: r :: s :: rest =>
      match b64val p, b64val q with
      | some a, some b =>
          if r = 61 then
            if s = 61 ∧ rest = [] then some [a * 4 + b / 16] else none
          else
            match b64val r with
            | some c =>
                if s = 61 then
                  if rest = [] then some [a * 4 + b / 16, b % 16 * 16 + c / 4] else none
                else
                  match b64val s with
                  | some d =>
                      match b64decodeAux rest with
                      | some t =>
                          some ((a * 4 + b / 16) :: (b % 16 * 16 + c / 4) :: (c % 4 * 64 + d) :: t)
                      | none => none
                  | none => none
            | none => none
      | _, _ => none
  | _ => none

/-- A byte `binascii.a2b_base64` keeps: an alphabet digit or padding. -/
def b64keep (c : Nat) : Bool := (b64val c).isSome || c == 61

/-- `base64.b64decode` with the default `validate=False`: discard bytes
outside the alphabet, then decode; `none` models `binascii.Error`. -/
def b64decode (c : List Nat) : Option (List Nat) :=
  b64decodeAux (c.filter b64keep)

/-! ## The Fernet primitive and the codec (`DatabaseManager._enc` / `_dec`)

`self.fernet` is `None` when the `cryptography` import failed
(`CRYPTO_OK = False`) and a `Fernet` instance otherwise. -/

/-- The external `cryptography.fernet.Fernet` object: an encrypt function
and a decrypt function on byte strings; `decrypt` returning `none` models
`InvalidToken` (the spec's `DecryptionError`). -/
structure Fernet where
  encrypt : List Nat → List Nat
  decrypt : List Nat → Option (List Nat)

/-- Lines 16-22 of sdms.py: `CRYPTO_OK` is `True` exactly when importing
`cryptography.fernet` succeeded. -/
def CRYPTO_OK (cryptographyAvailable : Bool) : Bool := cryptographyAvailable

/-- Everything the program logs or prints while the module is imported and
`DatabaseManager.__init__` runs (lines 16-22 and 35-55 of sdms.py): the
`except` branch only imports `base64` and sets the flag, and `__init__`
only opens the database and key files — no message is emitted in either
mode. -/
def startupMessages (_cryptographyAvailable : Bool) : List String := []

/-- Lines 48-55 of sdms.py: `self.fernet` stays `None` unless `CRYPTO_OK`,
in which case it is the `Fernet` instance built from the key file. -/
def mkFernet (cryptographyAvailable : Bool) (f : Fernet) : Option Fernet :=
  if CRYPTO_OK cryptographyAvailable then some f else none

/-- `DatabaseManager._enc` (lines 57-63): Fernet encryption when a codec is
present, otherwise the base64 fallback. -/
def enc (fernet : Option Fernet) (s : List Nat) : List Nat :=
  match fernet with
  | some f => f.encrypt s
  | none => b64encode s

/-- `DatabaseManager._dec` (lines 65-70): Fernet decryption when a codec is
present, otherwise base64 decoding; `none` models the raised exception. -/
def dec (fernet : Option Fernet) (b : List Nat) : Option (List Nat) :=
  match fernet with
  | some f => f.decrypt b
  | none => b64decode b

/-! ## Round trip of the base64 fallback -/

theorem b64val_b64char : ∀ n < 64, b64val (b64char n) = some n := by decide

theorem b64char_ne_61 (n : Nat) : b64char n ≠ 61 := by
  unfold b64char
  split_ifs <;> omega

theorem b64keep_b64char (n : Nat) : b64keep (b64char n) = true := by
  by_cases h : n < 64
  · simp [b64keep, b64val_b64char n h]
  · have h47 : b64char n = 47 := by unfold b64char; split_ifs <;> omega
    simp [b64keep, h47]
    decide

theorem b64keep_of_mem_encode : ∀ l : List Nat, ∀ x ∈ b64encode l, b64keep x = true := by
  intro l
  induction l using b64encode.induct with
  | case1 => simp [b64encode]
  | case2 a =>
      simp only [b64encode, List.mem_cons, List.not_mem_nil, or_false]
      rintro x (rfl | rfl | rfl | rfl) <;> first | apply b64keep_b64char | decide
  | case3 a b =>
      simp only [b64encode, List.mem_cons, List.not_mem_nil, or_false]
      rintro x (rfl | rfl | rfl | rfl) <;> first | apply b64keep_b64char | decide
  | case4 a b c rest ih =>
      simp only [b64encode, List.mem_cons]
      rintro x (rfl | rfl | rfl | rfl | hx)
      · apply b64keep_b64char
      · apply b64keep_b64char
      · apply b64keep_b64char
      · apply b64keep_b64char
      · exact ih x hx

theorem filter_b64encode (l : List Nat) : (b64encode l).filter b64keep = b64encode l :=
  List.filter_eq_self.mpr (b64keep_of_mem_encode l)

theorem b64decodeAux_encode (l : List Nat) (h : ∀ x ∈ l, x < 256) :
    b64decodeAux (b64encode l) = some l := by
  induction l using b64encode.induct with
  | case1 => rfl
  | case2 a =>
      have ha : a < 256 := h a (by simp)
      have h1 : b64val (b64char (a / 4)) = some (a / 4) := b64val_b64char _ (by omega)
      have h2 : b64val (b64char (a % 4 * 16)) = some (a % 4 * 16) := b64val_b64char _ (by omega)
      simp only [b64encode, b64decodeAux, h1, h2, if_true, and_self, if_pos rfl]
      simp only [Option.some.injEq, List.cons.injEq, and_true]
      omega
  | case3 a b =>
      have ha : a < 256 := h a (by simp)
      have hb : b < 256 := h b (by simp)
      have h1 : b64val (b64char (a / 4)) = some (a / 4) := b64val_b64char _ (by omega)
      have h2 : b64val (b64char (a % 4 * 16 + b / 16)) = some (a % 4 * 16 + b / 16) :=
        b64val_b64char _ (by omega)
      have h3 : b64val (b64char (b % 16 * 4)) = some (b % 16 * 4) := b64val_b64char _ (by omega)
      simp only [b64encode, b64decodeAux, h1, h2, h3, b64char_ne_61, if_false, if_true, if_pos rfl]
      simp only [Option.some.injEq, List.cons.injEq, and_true]
      constructor <;> omega
  | case4 a b c rest ih =>
      have ha : a < 256 := h a (by simp)
      have hb : b < 256 := h b (by simp)
      have hc : c < 256 := h c (by simp)
      have hrest : ∀ x ∈ rest, x < 256 := fun x hx => h x (by simp [hx])
      have h1 : b64val (b64char (a / 4)) = some (a / 4) := b64val_b64char _ (by omega)
      have h2 : b64val (b64char (a % 4 * 16 + b / 16)) = some (a % 4 * 16 + b / 16) :=
        b64val_b64char _ (by omega)
      have h3 : b64val (b64char (b % 16 * 4 + c / 64)) = some (b % 16 * 4 + c / 64) :=
        b64val_b64char _ (by omega)
      have h4 : b64val (b64char (c % 64)) = some (c % 64) := b64val_b64char _ (by omega)
      simp only [b64encode, b64decodeAux, h1, h2, h3, h4, b64char_ne_61, if_false, ih hrest]
      simp only [Option.some.injEq, List.cons.injEq, and_true]
      refine ⟨by omega, by omega, by omega⟩

theorem b64_roundtrip (l : List Nat) (h : ∀ x ∈ l, x < 256) :
    b64decode (b64encode l) = some l := by
  rw [b64decode, filter_b64encode, b64decodeAux_encode l h]

/-- The codec round trip: in Fernet mode it is the primitive's documented
contract, in fallback mode it is the base64 round trip. -/
theorem dec_enc (fernet : Option Fernet) (s : List Nat) (hs : ∀ x ∈ s, x < 256)
    (hf : ∀ f, fernet = some f → ∀ m, f.decrypt (f.encrypt m) = some m) :
    dec fernet (enc fernet s) = some s := by
  cases fernet with
  | some f => exact hf f rfl s
  | none => exact b64_roundtrip s hs

/-! ## A concrete authenticated scheme

A toy instance of the `Fernet` interface used to instantiate the abstract
primitive in witnesses: it duplicates the message and checks the two halves
against each other, so it satisfies both the round-trip contract and
single-byte tamper detection. -/

def repFernet : Fernet where
  encrypt m := m ++ m
  decrypt c :=
    if c.take (c.length / 2) = c.drop (c.length / 2) then some (c.take (c.length / 2))
    else none

theorem repFernet_dec_enc (m : List Nat) : repFernet.decrypt (repFernet.encrypt m) = some m := by
  show (if (m ++ m).take ((m ++ m).length / 2) = (m ++ m).drop ((m ++ m).length / 2)
      then some ((m ++ m).take ((m ++ m).length / 2)) else none) = some m
  have hlen : (m ++ m).length / 2 = m.length := by rw [List.length_append]; omega
  rw [hlen, List.take_left, List.drop_left, if_pos rfl]

theorem repFernet_tamper (m : List Nat) (i : Nat) (b : Nat)
    (hi : i < (repFernet.encrypt m).length) (hb : b ≠ (repFernet.encrypt m).getD i 0) :
    repFernet.decrypt ((repFernet.encrypt m).set i b) = none := by
  have hi2 : i < (m ++ m).length := hi
  have hb2 : b ≠ (m ++ m).getD i 0 := hb
  have hilen : i < m.length + m.length := by
    rw [List.length_append] at hi2; exact hi2
  show (if ((m ++ m).set i b).take (((m ++ m).set i b).length / 2) =
        ((m ++ m).set i b).drop (((m ++ m).set i b).length / 2)
      then some (((m ++ m).set i b).take (((m ++ m).set i b).length / 2)) else none) = none
  have hdiv : ((m ++ m).set i b).length / 2 = m.length := by
    rw [List.length_set, List.length_append]; omega
  by_cases hcase : i < m.length
  · have hset : (m ++ m).set i b = m.set i b ++ m := by
      rw [List.set_append, if_pos hcase]
    rw [hdiv, hset, List.take_left' (by simp), List.drop_left' (by simp), if_neg]
    intro he
    apply hb2
    have hsl : i < (m.set i b).length := by simpa using hcase
    have h1 : (m.set i b).getD i 0 = b := by
      rw [List.getD_eq_getElem _ _ hsl]
      exact List.getElem_set_self hsl
    have h2 : (m.set i b).getD i 0 = m.getD i 0 := by rw [he]
    have h3 : (m ++ m).getD i 0 = m.getD i 0 := by
      rw [List.getD_eq_getElem _ _ hi2, List.getD_eq_getElem _ _ hcase]
      exact List.getElem_append_left hcase
    rw [h3, ← h2, h1]
  · have hj : i - m.length < m.length := by omega
    have hset : (m ++ m).set i b = m ++ m.set (i - m.length) b := by
      rw [List.set_append, if_neg hcase]
    rw [hdiv, hset, List.take_left' rfl, List.drop_left' rfl, if_neg]
    intro he
    apply hb2
    have hsl : i - m.length < (m.set (i - m.length) b).length := by simpa using hj
    have h1 : (m.set (i - m.length) b).getD (i - m.length) 0 = b := by
      rw [List.getD_eq_getElem _ _ hsl]
      exact List.getElem_set_self hsl
    have h2 : (m.set (i - m.length) b).getD (i - m.length) 0 = m.getD (i - m.length) 0 := by
      rw [← he]
    have h3 : (m ++ m).getD i 0 = m.getD (i - m.length) 0 := by
      rw [List.getD_eq_getElem _ _ hi2, List.getD_eq_getElem _ _ hj]
      exact List.getElem_append_right (by omega)
    rw [h3, ← h2, h1]

/-! ## The record store (`DatabaseManager` over the SQLite table `students`)

A table state is the list of its rows.  SQLite's `INTEGER PRIMARY KEY`
makes an `INSERT` with an already-present id fail (`IntegrityError`, the
spec's `DuplicateKeyError`) and leave the table untouched. -/

/-- The in-memory record (the `Student` dataclass): `grade` is the
plaintext sensitive field, as UTF-8 bytes. -/
structure Student where
  id : Int
  name : String
  age : Int
  grade : List Nat
  deriving DecidableEq, Repr

/-- One row of the `students` table: `grade_enc` is the stored ciphertext
of the sensitive field. -/
structure Row where
  id : Int
  name : String
  age : Int
  grade_enc : List Nat
  deriving DecidableEq, Repr, Inhabited

/-- The spec's error taxonomy as raised by the store operations. -/
inductive DBError where
  | duplicateKey
  | decryptionError
  deriving DecidableEq, Repr

/-- `DatabaseManager.add_student` (lines 72-77): `INSERT` of the row with
the encrypted grade; a duplicate id makes the primary key constraint fail,
leaving the table unchanged.  The returned pair is (outcome, table after
the call). -/
def add_student (fernet : Option Fernet) (st : List Row) (s : Student) :
    Except DBError Unit × List Row :=
  if ∃ r ∈ st, r.id = s.id then (Except.error DBError.duplicateKey, st)
  else (Except.ok (), st ++ [⟨s.id, s.name, s.age, enc fernet s.grade⟩])

/-- `SELECT ... ORDER BY id`: the rows in ascending id order. -/
def orderById (st : List Row) : List Row :=
  List.insertionSort (fun a b : Row => a.id ≤ b.id) st

/-- The loop of `list_students` (lines 81-84): decrypt each row in order;
the first failing row raises, discarding everything decrypted so far. -/
def decryptRows (fernet : Option Fernet) : List Row → Except DBError (List Student)
  | [] => Except.ok []
  | r :: rest =>
      match dec fernet r.grade_enc with
      | none => Except.error DBError.decryptionError
      | some g =>
          match decryptRows fernet rest with
          | Except.ok l => Except.ok (⟨r.id, r.name, r.age, g⟩ :: l)
          | Except.error e => Except.error e

/-- `DatabaseManager.list_students` (lines 79-84). -/
def list_students (fernet : Option Fernet) (st : List Row) : Except DBError (List Student) :=
  decryptRows fernet (orderById st)

/-- A `list_students` call as seen by the table: the result together with
the table after the call — the method only runs a `SELECT`, so the table
is returned as it was. -/
def list_students_call (fernet : Option Fernet) (st : List Row) :
    Except DBError (List Student) × List Row :=
  (list_students fernet st, st)

/-- `DatabaseManager.update_grade` (lines 86-91): `UPDATE students SET
grade_enc=? WHERE id=?` — every row matching the id gets the new
ciphertext, all other rows stay; no row matching is not an error. -/
def update_grade (fernet : Option Fernet) (st : List Row) (sid : Int) (g : List Nat) :
    List Row :=
  st.map fun r => if r.id = sid then ⟨r.id, r.name, r.age, enc fernet g⟩ else r

/-- `DatabaseManager.delete_student` (lines 93-95): `DELETE FROM students
WHERE id=?` — rows matching the id are removed, the rest stay in order. -/
def delete_student (st : List Row) (sid : Int) : List Row :=
  st.filter fun r => decide (r.id ≠ sid)

/-- One core operation as invoked through the menu loop. -/
inductive Op where
  | add (s : Student)
  | update (sid : Int) (g : List Nat)
  | del (sid : Int)
  | list

/-- The table after one operation (a failed `add` leaves the table as the
`INSERT` found it; `list` only reads). -/
def runOp (fernet : Option Fernet) (st : List Row) : Op → List Row
  | Op.add s => (add_student fernet st s).2
  | Op.update sid g => update_grade fernet st sid g
  | Op.del sid => delete_student st sid
  | Op.list => (list_students_call fernet st).2

/-- The table after a sequence of operations. -/
def run (fernet : Option Fernet) (ops : List Op) (st : List Row) : List Row :=
  ops.foldl (runOp fernet) st

/-- The table states reachable from the fresh (empty) table through the
store's operations, where every student handed to `add_student` satisfies
the guard `G`. -/
inductive ReachableG (fernet : Option Fernet) (G : Student → Prop) : List Row → Prop
  | init : ReachableG fernet G []
  | add (st : List Row) (s : Student) : ReachableG fernet G st → G s →
      ReachableG fernet G (add_student fernet st s).2
  | update (st : List Row) (sid : Int) (g : List Nat) : ReachableG fernet G st →
      ReachableG fernet G (update_grade fernet st sid g)
  | del (st : List Row) (sid : Int) : ReachableG fernet G st →
      ReachableG fernet G (delete_student st sid)

/-- Reachability through the operations with no restriction on inputs. -/
def Reachable (fernet : Option Fernet) (st : List Row) : Prop :=
  ReachableG fernet (fun _ => True) st

/-! ## Claims -/

/-- C1: for every plaintext (as UTF-8 bytes), decrypting the result of
encrypting it with the same codec instance returns it exactly, in both the
authenticated-encryption mode (given the Fernet primitive's documented
round-trip contract) and the base64 fallback mode. -/
theorem C1_decrypt_encrypt_roundtrip (fernet : Option Fernet) (s : List Nat)
    (hbytes : ∀ x ∈ s, x < 256)
    (hfernet : ∀ f, fernet = some f → ∀ m, f.decrypt (f.encrypt m) = some m) :
    dec fernet (enc fernet s) = some s :=
  dec_enc fernet s hbytes hfernet

theorem C1_decrypt_encrypt_roundtrip_witness :
    ((∀ x ∈ ([206, 177] : List Nat), x < 256) ∧
        dec none (enc none [206, 177]) = some [206, 177]) ∧
      dec (some repFernet) (enc (some repFernet) [206, 177]) = some [206, 177] :=
  ⟨⟨by decide,
      C1_decrypt_encrypt_roundtrip none [206, 177] (by decide) (fun _ hf => nomatch hf)⟩,
    C1_decrypt_encrypt_roundtrip (some repFernet) [206, 177] (by decide)
      (fun f hf => by injection hf with h; subst h; exact repFernet_dec_enc)⟩

/-- C2 counterexample: in the fallback mode the codec is plain base64, and
changing one byte of the ciphertext of the byte string "A" (code 65) —
`QQ==`, bytes [81, 81, 61, 61] — into `RQ==` makes decryption succeed with
the wrong plaintext "E" (code 69) instead of failing. -/
theorem C2_tamper_counterexample :
    ((enc none [65]).set 0 82 ≠ enc none [65] ∧ (82 : Nat) ≠ (enc none [65]).getD 0 0) ∧
      dec none ((enc none [65]).set 0 82) = some [69] ∧ ([69] : List Nat) ≠ [65] := by
  decide

/-- C2 amended: only in the authenticated-encryption mode does flipping a
single ciphertext byte make decryption fail (this is the Fernet
primitive's documented tamper detection, to which `_dec` delegates); the
fallback encoding detects no tampering. -/
theorem C2_tamper_detection_authenticated (f : Fernet)
    (htamper : ∀ (m : List Nat) (i : Nat) (b : Nat), i < (f.encrypt m).length →
      b ≠ (f.encrypt m).getD i 0 → f.decrypt ((f.encrypt m).set i b) = none)
    (m : List Nat) (i : Nat) (b : Nat) (hi : i < (enc (some f) m).length)
    (hb : b ≠ (enc (some f) m).getD i 0) :
    dec (some f) ((enc (some f) m).set i b) = none :=
  htamper m i b hi hb

theorem C2_tamper_detection_authenticated_witness :
    (0 < (enc (some repFernet) [65]).length ∧
        (66 : Nat) ≠ (enc (some repFernet) [65]).getD 0 0) ∧
      dec (some repFernet) ((enc (some repFernet) [65]).set 0 66) = none :=
  ⟨⟨by decide, by decide⟩,
    C2_tamper_detection_authenticated repFernet
      (fun m i b hi hb => repFernet_tamper m i b hi hb) [65] 0 66 (by decide) (by decide)⟩

/-- C3 counterexample: with the cryptography library unavailable the codec
silently becomes plain base64 while the program logs or prints nothing at
startup — the fallback is not explicit at runtime. -/
theorem C3_fallback_silent_counterexample :
    enc (mkFernet false repFernet) [65] = b64encode [65] ∧ startupMessages false = [] :=
  ⟨rfl, rfl⟩

/-- C3 amended: the fallback is recorded only in the internal module flag
`CRYPTO_OK = False` (and a source comment); no message is logged or
printed at startup, so nothing presents the mode to the user at all —
neither as secure nor as degraded. -/
theorem C3_fallback_flag_only (f : Fernet) (s : List Nat) :
    CRYPTO_OK false = false ∧ mkFernet false f = none ∧
      enc (mkFernet false f) s = b64encode s ∧ startupMessages false = [] :=
  ⟨rfl, rfl, rfl, rfl⟩

/-- C4: `add_student` with an id already present fails with
`DuplicateKeyError` (the primary key `IntegrityError`) and returns the
table exactly as it found it: the existing row and every other row are
unmodified. -/
theorem C4_duplicate_add_rejected (fernet : Option Fernet) (st : List Row) (s : Student)
    (hdup : ∃ r ∈ st, r.id = s.id) :
    add_student fernet st s = (Except.error DBError.duplicateKey, st) := by
  rw [add_student, if_pos hdup]

theorem C4_duplicate_add_rejected_witness :
    (∃ r ∈ [(⟨1, "Alice", 20, [81]⟩ : Row)], r.id = (⟨1, "Bob", 21, [66]⟩ : Student).id) ∧
      add_student none [(⟨1, "Alice", 20, [81]⟩ : Row)] ⟨1, "Bob", 21, [66]⟩ =
        (Except.error DBError.duplicateKey, [(⟨1, "Alice", 20, [81]⟩ : Row)]) :=
  ⟨by decide, C4_duplicate_add_rejected none [⟨1, "Alice", 20, [81]⟩] ⟨1, "Bob", 21, [66]⟩
    (by decide)⟩

/-- When every row's ciphertext decrypts, the listing loop succeeds and
its records are, in order, the rows with the sensitive field decrypted. -/
theorem decryptRows_ok (fernet : Option Fernet) :
    ∀ rows : List Row, (∀ r ∈ rows, (dec fernet r.grade_enc).isSome) →
      ∃ l, decryptRows fernet rows = Except.ok l ∧
        l.map (fun s => (s.id, s.name, s.age, some s.grade)) =
          rows.map (fun r => (r.id, r.name, r.age, dec fernet r.grade_enc))
  | [], _ => ⟨[], rfl, rfl⟩
  | r :: rest, h => by
      obtain ⟨g, hg⟩ := Option.isSome_iff_exists.mp (h r (by simp))
      obtain ⟨l, hl, hmap⟩ := decryptRows_ok fernet rest (fun x hx => h x (by simp [hx]))
      refine ⟨⟨r.id, r.name, r.age, g⟩ :: l, ?_, ?_⟩
      · simp only [decryptRows, hg, hl]
      · simp only [List.map_cons, hmap, hg]

/-- A row that fails to decrypt makes the listing loop raise
`DecryptionError`, whatever the other rows do. -/
theorem decryptRows_error (fernet : Option Fernet) :
    ∀ rows : List Row, (∃ r ∈ rows, dec fernet r.grade_enc = none) →
      decryptRows fernet rows = Except.error DBError.decryptionError
  | [], h => by simp at h
  | r :: rest, h => by
      rcases h with ⟨x, hx, hxd⟩
      rcases List.mem_cons.mp hx with rfl | hx2
      · simp only [decryptRows, hxd]
      · cases hgr : dec fernet r.grade_enc with
        | none => simp only [decryptRows, hgr]
        | some g =>
            have hrec := decryptRows_error fernet rest ⟨x, hx2, hxd⟩
            simp only [decryptRows, hgr, hrec]

/-- C5: when every stored ciphertext decrypts, `list_students` returns
exactly the persisted records — a sequence sorted by ascending id whose
entries are, up to the reordering, the rows of the table with the
sensitive field decrypted. -/
theorem C5_list_sorted_decrypted (fernet : Option Fernet) (st : List Row)
    (hdec : ∀ r ∈ st, (dec fernet r.grade_enc).isSome) :
    ∃ l, list_students fernet st = Except.ok l ∧
      List.Sorted (fun a b : Student => a.id ≤ b.id) l ∧
      (l.map (fun s => (s.id, s.name, s.age, some s.grade))).Perm
        (st.map (fun r => (r.id, r.name, r.age, dec fernet r.grade_enc))) := by
  have hperm : (orderById st).Perm st := List.perm_insertionSort _ st
  have hsorted : List.Sorted (fun a b : Row => a.id ≤ b.id) (orderById st) := by
    haveI : IsTotal Row (fun a b : Row => a.id ≤ b.id) := ⟨fun a b => Int.le_total a.id b.id⟩
    haveI : IsTrans Row (fun a b : Row => a.id ≤ b.id) :=
      ⟨fun _ _ _ hab hbc => le_trans hab hbc⟩
    exact List.sorted_insertionSort _ st
  obtain ⟨l, hl, hmap⟩ := decryptRows_ok fernet (orderById st)
    (fun r hr => hdec r (hperm.mem_iff.mp hr))
  refine ⟨l, hl, ?_, ?_⟩
  · have hid : l.map (fun s : Student => s.id) = (orderById st).map (fun r : Row => r.id) := by
      have h1 := congrArg (List.map (fun p : Int × String × Int × Option (List Nat) => p.1)) hmap
      simpa [List.map_map, Function.comp_def] using h1
    have h2 : List.Pairwise (fun a b : Int => a ≤ b)
        ((orderById st).map (fun r : Row => r.id)) :=
      List.pairwise_map.mpr hsorted
    rw [← hid] at h2
    exact List.pairwise_map.mp h2
  · exact hmap ▸ hperm.map (fun r : Row => (r.id, r.name, r.age, dec fernet r.grade_enc))

theorem C5_list_sorted_decrypted_witness :
    (∀ r ∈ [(⟨3, "Carol", 23, b64encode [67]⟩ : Row), ⟨1, "Alice", 21, b64encode [65]⟩,
        ⟨2, "Bob", 22, b64encode [66]⟩], (dec none r.grade_enc).isSome) ∧
      ∃ l, list_students none [(⟨3, "Carol", 23, b64encode [67]⟩ : Row),
          ⟨1, "Alice", 21, b64encode [65]⟩, ⟨2, "Bob", 22, b64encode [66]⟩] = Except.ok l ∧
        List.Sorted (fun a b : Student => a.id ≤ b.id) l ∧
        (l.map (fun s => (s.id, s.name, s.age, some s.grade))).Perm
          (([(⟨3, "Carol", 23, b64encode [67]⟩ : Row), ⟨1, "Alice", 21, b64encode [65]⟩,
            ⟨2, "Bob", 22, b64encode [66]⟩]).map
            (fun r => (r.id, r.name, r.age, dec none r.grade_enc))) :=
  ⟨by decide, C5_list_sorted_decrypted none _ (by decide)⟩

/-- C6: one undecryptable row makes `list_students` abort with
`DecryptionError`; no partial record sequence is returned, whether or not
other rows decrypt. -/
theorem C6_list_aborts_on_bad_row (fernet : Option Fernet) (st : List Row)
    (hbad : ∃ r ∈ st, dec fernet r.grade_enc = none) :
    list_students fernet st = Except.error DBError.decryptionError := by
  rcases hbad with ⟨r, hr, hrd⟩
  exact decryptRows_error fernet (orderById st)
    ⟨r, (List.perm_insertionSort _ st).mem_iff.mpr hr, hrd⟩

theorem C6_list_aborts_on_bad_row_witness :
    (∃ r ∈ [(⟨1, "Alice", 20, b64encode [65]⟩ : Row), ⟨2, "Bob", 21, [81]⟩],
        dec none r.grade_enc = none) ∧
      list_students none [(⟨1, "Alice", 20, b64encode [65]⟩ : Row), ⟨2, "Bob", 21, [81]⟩] =
        Except.error DBError.decryptionError ∧
      dec none (b64encode [65]) = some [65] :=
  ⟨by decide,
    C6_list_aborts_on_bad_row none [⟨1, "Alice", 20, b64encode [65]⟩, ⟨2, "Bob", 21, [81]⟩]
      (by decide),
    by decide⟩

/-- C7: `update_grade` rewrites the stored ciphertext of every row
matching the id to the encryption of the new value, leaves each such row's
name and age and every non-matching row unchanged (and creates no row), is
a no-op without error when no row matches, and the updated row decrypts to
the new value (so a subsequent listing shows it). -/
theorem C7_update_grade_semantics (fernet : Option Fernet) (st : List Row) (sid : Int)
    (g : List Nat) (hbytes : ∀ x ∈ g, x < 256)
    (hfernet : ∀ f, fernet = some f → ∀ m, f.decrypt (f.encrypt m) = some m) :
    (update_grade fernet st sid g).length = st.length ∧
      (∀ i, i < st.length →
        (update_grade fernet st sid g).getD i default =
          (if (st.getD i default).id = sid then
            ⟨(st.getD i default).id, (st.getD i default).name, (st.getD i default).age,
              enc fernet g⟩
          else st.getD i default)) ∧
      ((∀ r ∈ st, r.id ≠ sid) → update_grade fernet st sid g = st) ∧
      (∀ r ∈ update_grade fernet st sid g, r.id = sid → dec fernet r.grade_enc = some g) := by
  refine ⟨by simp [update_grade], fun i hi => ?_, fun h => ?_, fun r hr hid => ?_⟩
  · have hi2 : i < (update_grade fernet st sid g).length := by simpa [update_grade] using hi
    rw [List.getD_eq_getElem _ _ hi2, List.getD_eq_getElem st default hi]
    simp only [update_grade, List.getElem_map]
  · have hcong : ∀ r ∈ st,
        (fun r : Row => if r.id = sid then (⟨r.id, r.name, r.age, enc fernet g⟩ : Row) else r) r
          = id r := by
      intro r hr
      simp [h r hr]
    rw [update_grade, List.map_congr_left hcong, List.map_id]
  · obtain ⟨r0, hr0, heq⟩ := List.mem_map.mp hr
    by_cases h0 : r0.id = sid
    · rw [if_pos h0] at heq
      rw [← heq]
      exact dec_enc fernet g hbytes hfernet
    · rw [if_neg h0] at heq
      rw [← heq] at hid
      exact absurd hid h0

theorem C7_update_grade_semantics_witness :
    update_grade none [(⟨5, "Bob", 21, b64encode [66]⟩ : Row)] 5 [65] =
        [(⟨5, "Bob", 21, b64encode [65]⟩ : Row)] ∧
      (∀ r ∈ update_grade none [(⟨5, "Bob", 21, b64encode [66]⟩ : Row)] 5 [65],
        r.id = 5 → dec none r.grade_enc = some [65]) ∧
      update_grade none [(⟨5, "Bob", 21, b64encode [66]⟩ : Row)] 999 [65] =
        [(⟨5, "Bob", 21, b64encode [66]⟩ : Row)] :=
  ⟨by decide,
    (C7_update_grade_semantics none [⟨5, "Bob", 21, b64encode [66]⟩] 5 [65] (by decide)
      (fun _ hf => nomatch hf)).2.2.2,
    (C7_update_grade_semantics none [⟨5, "Bob", 21, b64encode [66]⟩] 999 [65] (by decide)
      (fun _ hf => nomatch hf)).2.2.1 (by decide)⟩

/-- C8: `delete_student` removes exactly the rows matching the id, keeps
every other row (in order, unmodified), is a no-op without error when no
row matches, and deleting the same id twice equals deleting it once. -/
theorem C8_delete_semantics (st : List Row) (sid : Int) :
    (∀ r, r ∈ delete_student st sid ↔ r ∈ st ∧ r.id ≠ sid) ∧
      List.Sublist (delete_student st sid) st ∧
      ((∀ r ∈ st, r.id ≠ sid) → delete_student st sid = st) ∧
      delete_student (delete_student st sid) sid = delete_student st sid := by
  refine ⟨fun r => ?_, List.filter_sublist st, fun h => ?_, ?_⟩
  · simp [delete_student, List.mem_filter]
  · exact List.filter_eq_self.mpr fun r hr => by simp [h r hr]
  · simp only [delete_student]
    exact List.filter_eq_self.mpr fun r hr => (List.mem_filter.mp hr).2

/-- C9 counterexample: `add_student` checks nothing about the numeric
attribute, so a table holding a row with a negative age is reachable from
the empty table through the store's operations. -/
theorem C9_negative_age_reachable :
    Reachable none [(⟨1, "Mallory", -1, b64encode [70]⟩ : Row)] ∧
      ((⟨1, "Mallory", -1, b64encode [70]⟩ : Row).age < 0) := by
  constructor
  · have h := @ReachableG.add none (fun _ => True) [] ⟨1, "Mallory", -1, [70]⟩
      ReachableG.init trivial
    have he : (add_student none [] (⟨1, "Mallory", -1, [70]⟩ : Student)).2 =
        [(⟨1, "Mallory", -1, b64encode [70]⟩ : Row)] := by decide
    rw [he] at h
    exact h
  · decide

/-- C9 amended: the store itself never constrains nor alters the age — it
persists whatever `add_student` is given.  The invariant holds exactly
when the callers respect it: if every student handed to `add_student` has
a nonnegative age, every row of every reachable state has a nonnegative
age. -/
theorem C9_age_nonneg_of_guarded (fernet : Option Fernet) (st : List Row)
    (h : ReachableG fernet (fun s => 0 ≤ s.age) st) : ∀ r ∈ st, 0 ≤ r.age := by
  induction h with
  | init => simp
  | add st s hst hG ih =>
      intro r hr
      rw [add_student] at hr
      split at hr
      · exact ih r hr
      · rcases List.mem_append.mp hr with h1 | h2
        · exact ih r h1
        · rw [List.mem_singleton] at h2
          rw [h2]
          exact hG
  | update st sid g hst ih =>
      intro r hr
      obtain ⟨r0, hr0, heq⟩ := List.mem_map.mp hr
      by_cases h0 : r0.id = sid
      · rw [if_pos h0] at heq
        rw [← heq]
        exact ih r0 hr0
      · rw [if_neg h0] at heq
        rw [← heq]
        exact ih r0 hr0
  | del st sid hst ih =>
      intro r hr
      exact ih r (List.mem_of_mem_filter hr)

theorem C9_age_nonneg_of_guarded_witness :
    ReachableG none (fun s : Student => 0 ≤ s.age) [(⟨1, "Ann", 20, b64encode [65]⟩ : Row)] ∧
      ∀ r ∈ [(⟨1, "Ann", 20, b64encode [65]⟩ : Row)], 0 ≤ r.age := by
  have h := @ReachableG.add none (fun s : Student => 0 ≤ s.age) [] ⟨1, "Ann", 20, [65]⟩
    ReachableG.init (by decide)
  have he : (add_student none [] (⟨1, "Ann", 20, [65]⟩ : Student)).2 =
      [(⟨1, "Ann", 20, b64encode [65]⟩ : Row)] := by decide
  rw [he] at h
  exact ⟨h, C9_age_nonneg_of_guarded none _ h⟩

/-- C10: `list_students` runs a single `SELECT`: it performs no insert,
update, delete or commit, the table after the call is the table before it
(also when the call aborts with a decryption failure), and inserting a
`list` call anywhere in a sequence of operations leaves the final table
unchanged. -/
theorem C10_list_leaves_table_unchanged (fernet : Option Fernet) (st : List Row)
    (ops1 ops2 : List Op) :
    (list_students_call fernet st).2 = st ∧
      run fernet (ops1 ++ Op.list :: ops2) st = run fernet (ops1 ++ ops2) st := by
  refine ⟨rfl, ?_⟩
  rw [run, run, List.foldl_append, List.foldl_append, List.foldl_cons]
  rfl

end SDMS
